import Mathlib

/-!
Shallow embedding of the `stack_pool` class of this repository
(`src/exam/stack_pool.hpp`, with the validated variant from
`src/exam/src/stack_pool.cpp` and the `first_impl.cpp` variant where they
differ), together with proofs about its operations.

Handles are modelled as `Nat` (the C++ index type is `std::size_t`);
handle `0` is the sentinel, handle `h ≥ 1` addresses storage position
`h - 1`.  The backing `std::vector<node_t>` is a `List (Node T)` plus a
`cap` field tracking the reserved capacity (`reserve` guarantees
`capacity ≥ n`; `push_back` grows it at least to the new size).
Out-of-range element accesses are undefined behaviour in C++
(`pool[x-1]` with unsigned wrap-around for `x = 0`), so every operation
that reads a node is modelled in `Option`, returning `none` exactly when
the C++ code would touch the vector out of range.
-/

/-- A pool node: a stored value and the 1-based handle of the next node
(`node_t` in the source). -/
structure Node (T : Type) where
  value : T
  next : Nat
deriving DecidableEq

/-- The pool state: backing storage, the free-list head `free_nodes`,
and the vector's reserved capacity. -/
structure stack_pool (T : Type) where
  pool : List (Node T)
  free_nodes : Nat
  cap : Nat
deriving DecidableEq

namespace stack_pool

variable {T : Type}

/-- `node(x)` of the source: storage position `x-1`.  For `x = 0` the
unsigned index `x-1` wraps around, which is out of range, so the read is
`none` exactly when `x` is not in `1..=len`. -/
def node? (p : stack_pool T) (x : Nat) : Option (Node T) :=
  if x = 0 then none else p.pool[x-1]?

/-- `next(x)` of the source: the `next` field of `node(x)`. -/
def next? (p : stack_pool T) (x : Nat) : Option Nat :=
  (node? p x).map Node.next

/-- `value(x)` of the source: the `value` field of `node(x)`. -/
def value? (p : stack_pool T) (x : Nat) : Option T :=
  (node? p x).map Node.value

/-- Overwrite the node addressed by handle `a` (used for the guarded
writes `value(tmp) = …; next(tmp) = …`, which in the code always follow
an in-range read of the same node). -/
def writeNode (p : stack_pool T) (a : Nat) (nd : Node T) : stack_pool T :=
  { p with pool := p.pool.set (a-1) nd }

/-- `end()` of the source: the sentinel handle, always `0`. -/
def endIndex : Nat := 0

/-- `new_stack()` of the source: returns the empty stack, handle `0`. -/
def new_stack : Nat := 0

/-- `empty(x)` of the source: true iff `x == end()`. -/
def empty (x : Nat) : Bool := x == 0

/-- The default constructor `stack_pool()`: empty storage, empty free
list, no reserved capacity. -/
def mkPool : stack_pool T := ⟨[], 0, 0⟩

/-- The constructor `stack_pool(n)`: empty storage, empty free list, and
`pool.reserve(n)` so the capacity is at least `n`. -/
def mkPoolReserve (n : Nat) : stack_pool T := ⟨[], 0, n⟩

/-- `reserve(n)` of the source: never shrinks the capacity. -/
def reserve (p : stack_pool T) (n : Nat) : stack_pool T :=
  { p with cap := max p.cap n }

/-- `capacity()` of the header variant (`stack_pool.hpp`): the vector's
capacity. -/
def capacity (p : stack_pool T) : Nat := p.cap

/-- `capacity()` of the `first_impl.cpp` variant: it returns
`pool.size()`, the number of stored nodes, not the capacity. -/
def capacity_first_impl (p : stack_pool T) : Nat := p.pool.length

/-- `_push(val, head)` of the source: if the free list is non-empty,
take its head node `tmp = free_nodes`, advance `free_nodes = next(tmp)`,
overwrite `value(tmp) = val` and `next(tmp) = head`, and return `tmp`;
otherwise `push_back({val, head})` and return `pool.size()`. -/
def _push (v : T) (head : Nat) (p : stack_pool T) : Option (Nat × stack_pool T) :=
  if p.free_nodes = 0 then
    some (p.pool.length + 1,
      { pool := p.pool ++ [⟨v, head⟩], free_nodes := 0,
        cap := max p.cap (p.pool.length + 1) })
  else
    (next? p p.free_nodes).map (fun m =>
      (p.free_nodes,
        { pool := p.pool.set (p.free_nodes - 1) ⟨v, head⟩, free_nodes := m,
          cap := p.cap }))

/-- `push(val, head)` of the source (both overloads have the same
semantics on values). -/
def push (v : T) (head : Nat) (p : stack_pool T) : Option (Nat × stack_pool T) :=
  _push v head p

/-- `pop(x)` of the source: if `x` is the sentinel the call is a no-op
returning `x`; otherwise `head = next(x)`, then `free_node(x, free_nodes)`
sets `next(x)` to the old free head and makes `x` the new free head. -/
def pop (x : Nat) (p : stack_pool T) : Option (Nat × stack_pool T) :=
  if x = 0 then some (x, p)
  else
    (node? p x).map (fun nd =>
      (nd.next,
        { pool := p.pool.set (x-1) ⟨nd.value, p.free_nodes⟩, free_nodes := x,
          cap := p.cap }))

/-- The loop of `free_stack`: `for (it = begin(next_idx); it != end(0); it++)
{ x = next(x); }`.  Each iteration reads `next(x)` (loop body) and
`next(it)` (iterator increment); the fuel bounds the number of
iterations, `none` meaning the C++ loop would run past that bound. -/
def freeStackLoop (p : stack_pool T) : Nat → Nat → Nat → Option Nat
  | _, _, 0 => none
  | x, it, fuel+1 =>
    if it = 0 then some x
    else
      (next? p x).bind (fun x2 =>
        (next? p it).bind (fun it2 => freeStackLoop p x2 it2 fuel))

/-- `free_stack(x)` of the source: remember `start = x`, read
`next_idx = next(x)`, walk `x` to the last node of the chain, rewrite
that node's `next` to the old free head, make `start` the new free head,
and return the sentinel.  The fuel `pool.length + 1` is enough for every
terminating chain, since a terminating chain has no duplicate nodes. -/
def free_stack (x : Nat) (p : stack_pool T) : Option (Nat × stack_pool T) :=
  (next? p x).bind (fun nIdx =>
    (freeStackLoop p x nIdx (p.pool.length + 1)).bind (fun last =>
      (node? p last).map (fun nd =>
        (0,
          { pool := p.pool.set (last-1) ⟨nd.value, p.free_nodes⟩,
            free_nodes := x, cap := p.cap }))))

/-- The handles visited when following `next` from `x` to the sentinel,
computed with fuel; `some l` means the chain terminates within the fuel
and every step's storage access is in range. -/
def chainHandles (p : stack_pool T) : Nat → Nat → Option (List Nat)
  | 0, _ => none
  | fuel+1, x =>
    if x = 0 then some []
    else
      (next? p x).bind (fun n => (chainHandles p fuel n).map (fun l => x :: l))

/-- `x` heads a terminating (hence acyclic, all-in-range) chain whose
handles are `l`. -/
def IsChain (p : stack_pool T) (x : Nat) (l : List Nat) : Prop :=
  ∃ f, chainHandles p f x = some l

/-- The values seen by iterating `begin(x) … end(0)` (dereference, then
advance to `next`), with fuel. -/
def stackValuesF (p : stack_pool T) : Nat → Nat → Option (List T)
  | 0, _ => none
  | fuel+1, x =>
    if x = 0 then some []
    else
      (node? p x).bind (fun nd =>
        (stackValuesF p fuel nd.next).map (fun l => nd.value :: l))

/-- The value sequence of the stack headed by `x`, with fuel sufficient
for every terminating chain. -/
def stackValues (p : stack_pool T) (x : Nat) : Option (List T) :=
  stackValuesF p (p.pool.length + 1) x

/-- The values stored at a list of handles (used to compare a chain's
value sequence across pool states). -/
def chainValues (p : stack_pool T) (l : List Nat) : List T :=
  l.filterMap (fun y => value? p y)

/-- Push a whole list of values one by one, threading each returned
handle into the next `push` (the pattern `l = pool.push(v, l)` of the
drivers). -/
def pushAll (p : stack_pool T) (h : Nat) : List T → Option (Nat × stack_pool T)
  | [] => some (h, p)
  | v :: vs =>
    match push v h p with
    | none => none
    | some (h2, p2) => pushAll p2 h2 vs

/-- `check_index(x, method::push)` of the validated variant
(`src/stack_pool.cpp`): throws iff `x < end()`, i.e. `x < 0` — which is
never true for the unsigned index type `std::size_t`. -/
def check_index_push (x : Nat) : Bool := decide (x < 0)

/-- `check_index(x, method::pop)` of the validated variant: throws iff
`x <= end()`, i.e. `x ≤ 0`, which for an unsigned index means `x = 0`. -/
def check_index_pop (x : Nat) : Bool := decide (x ≤ 0)

/-- `_push` of the validated variant: run `check_index`; a thrown
`index_invalid` is caught at the call site, logged, and converted into
the return value `1` with no mutation; otherwise the body is the same as
the header variant's `_push`. -/
def pushChecked (v : T) (head : Nat) (p : stack_pool T) : Option (Nat × stack_pool T) :=
  if check_index_push head then some (1, p) else _push v head p

/-- `pop` of the validated variant: run `check_index`; a thrown
`index_invalid` is caught, logged, and converted into the return value
`1` with no mutation; otherwise the body is the same as the header
variant's `pop`. -/
def popChecked (x : Nat) (p : stack_pool T) : Option (Nat × stack_pool T) :=
  if check_index_pop x then some (1, p) else pop x p

end stack_pool

/-- The `_iterator` of `stack_pool.hpp`: a cursor holding the handle of
the current node (`stack_index`); the pool pointer plays no part in
comparison. -/
structure PoolIterator where
  stack_index : Nat
deriving DecidableEq

namespace stack_pool

/-- `operator==` of `_iterator`: two iterators compare equal iff their
handles are equal. -/
def iterEq (a b : PoolIterator) : Bool := a.stack_index == b.stack_index

/-- `begin(x)` of the source: an iterator holding `x`. -/
def begin (_p : stack_pool T) (x : Nat) : PoolIterator := ⟨x⟩

/-- `end(x)` of the source: an iterator holding the sentinel `end() = 0`
whatever its argument. -/
def endIter (_p : stack_pool T) (_x : Nat) : PoolIterator := ⟨endIndex⟩

/-- Concatenation of the per-root chains (used to state that the chains
partition the allocated nodes). -/
def joinAll : List (List Nat) → List Nat
  | [] => []
  | l :: ls => l ++ joinAll ls

/-- Each root in the first list heads a terminating chain with the
corresponding handle list in the second. -/
def Chains (p : stack_pool T) : List Nat → List (List Nat) → Prop
  | [], [] => True
  | r :: rs, l :: ls => IsChain p r l ∧ Chains p rs ls
  | _, _ => False

/-- Invariant I2 of the spec, for a pool together with the list of
caller-held stack handles: the free list and every held stack head a
terminating chain, the chains are pairwise disjoint and duplicate-free,
and together they cover every allocated position `1..=len` — so each
allocated node is reachable from exactly one root. -/
def Inv (p : stack_pool T) (roots : List Nat) : Prop :=
  ∃ ls : List (List Nat),
    Chains p (p.free_nodes :: roots) ls ∧
    (joinAll ls).Nodup ∧
    ∀ i, 1 ≤ i → i ≤ p.pool.length → i ∈ joinAll ls

/-! ### Basic facts about `node?` and `chainHandles` -/

lemma node?_some_range {p : stack_pool T} {y : Nat} {nd : Node T}
    (h : node? p y = some nd) : 1 ≤ y ∧ y ≤ p.pool.length := by
  unfold node? at h
  by_cases hy : y = 0
  · simp [hy] at h
  · rw [if_neg hy] at h
    obtain ⟨hlt, -⟩ := List.getElem?_eq_some.mp h
    omega

lemma next?_some_range {p : stack_pool T} {y m : Nat}
    (h : next? p y = some m) : 1 ≤ y ∧ y ≤ p.pool.length := by
  unfold next? at h
  cases hnd : node? p y with
  | none => rw [hnd] at h; simp at h
  | some nd => exact node?_some_range hnd

lemma chainHandles_zero {p : stack_pool T} {f : Nat} :
    chainHandles p (f+1) 0 = some [] := by
  simp [chainHandles]

lemma isChain_nil (p : stack_pool T) : IsChain p 0 [] := ⟨1, chainHandles_zero⟩

lemma chainHandles_zero_elim {p : stack_pool T} {f : Nat} {l : List Nat}
    (h : chainHandles p f 0 = some l) : l = [] := by
  cases f with
  | zero => simp [chainHandles] at h
  | succ f => rw [chainHandles_zero] at h; exact (Option.some_inj.mp h).symm

lemma chainHandles_cons_elim {p : stack_pool T} {f x : Nat} {l : List Nat}
    (h : chainHandles p (f+1) x = some l) (hx : x ≠ 0) :
    ∃ n l', next? p x = some n ∧ chainHandles p f n = some l' ∧ l = x :: l' := by
  unfold chainHandles at h
  rw [if_neg hx] at h
  cases hn : next? p x with
  | none => rw [hn] at h; simp at h
  | some n =>
    rw [hn, Option.some_bind] at h
    cases hc : chainHandles p f n with
    | none => rw [hc] at h; simp at h
    | some l' =>
      rw [hc] at h
      have h2 : x :: l' = l := by simpa using h
      exact ⟨n, l', rfl, hc, h2.symm⟩

lemma chainHandles_cons_intro {p : stack_pool T} {f x n : Nat} {l' : List Nat}
    (hx : x ≠ 0) (hn : next? p x = some n) (hc : chainHandles p f n = some l') :
    chainHandles p (f+1) x = some (x :: l') := by
  unfold chainHandles
  rw [if_neg hx, hn, Option.some_bind, hc]
  rfl

lemma chainHandles_mono {p : stack_pool T} {f x : Nat} {l : List Nat}
    (h : chainHandles p f x = some l) : chainHandles p (f+1) x = some l := by
  induction f generalizing x l with
  | zero => simp [chainHandles] at h
  | succ f ih =>
    by_cases hx : x = 0
    · subst hx
      rw [chainHandles_zero_elim h]
      exact chainHandles_zero
    · obtain ⟨n, l', hn, hc, rfl⟩ := chainHandles_cons_elim h hx
      exact chainHandles_cons_intro hx hn (ih hc)

lemma chainHandles_le {p : stack_pool T} {f g x : Nat} {l : List Nat}
    (hfg : f ≤ g) (h : chainHandles p f x = some l) :
    chainHandles p g x = some l := by
  induction g with
  | zero =>
    have : f = 0 := Nat.le_zero.mp hfg
    subst this; exact h
  | succ g ih =>
    rcases Nat.le_succ_iff.mp hfg with hle | rfl
    · exact chainHandles_mono (ih hle)
    · exact h

lemma isChain_unique {p : stack_pool T} {x : Nat} {l l' : List Nat}
    (h : IsChain p x l) (h' : IsChain p x l') : l = l' := by
  obtain ⟨f, hf⟩ := h
  obtain ⟨g, hg⟩ := h'
  have h1 := chainHandles_le (Nat.le_max_left f g) hf
  have h2 := chainHandles_le (Nat.le_max_right f g) hg
  rw [h1] at h2
  exact Option.some_inj.mp h2

lemma isChain_zero_elim {p : stack_pool T} {l : List Nat}
    (h : IsChain p 0 l) : l = [] :=
  isChain_unique h (isChain_nil p)

lemma isChain_elim {p : stack_pool T} {x : Nat} {l : List Nat}
    (h : IsChain p x l) (hx : x ≠ 0) :
    ∃ n l', next? p x = some n ∧ IsChain p n l' ∧ l = x :: l' := by
  obtain ⟨f, hf⟩ := h
  cases f with
  | zero => simp [chainHandles] at hf
  | succ f =>
    obtain ⟨n, l', hn, hc, rfl⟩ := chainHandles_cons_elim hf hx
    exact ⟨n, l', hn, ⟨f, hc⟩, rfl⟩

lemma isChain_cons {p : stack_pool T} {x n : Nat} {l' : List Nat}
    (hx : x ≠ 0) (hn : next? p x = some n) (h : IsChain p n l') :
    IsChain p x (x :: l') := by
  obtain ⟨f, hf⟩ := h
  exact ⟨f+1, chainHandles_cons_intro hx hn hf⟩

lemma chainHandles_mem_next {p : stack_pool T} {f x : Nat} {l : List Nat}
    (h : chainHandles p f x = some l) {y : Nat} (hy : y ∈ l) :
    y ≠ 0 ∧ ∃ m, next? p y = some m := by
  induction f generalizing x l with
  | zero => simp [chainHandles] at h
  | succ f ih =>
    by_cases hx : x = 0
    · subst hx; rw [chainHandles_zero_elim h] at hy; simp at hy
    · obtain ⟨n, l', hn, hc, rfl⟩ := chainHandles_cons_elim h hx
      rcases List.mem_cons.mp hy with rfl | hy'
      · exact ⟨hx, n, hn⟩
      · exact ih hc hy'

lemma isChain_mem_range {p : stack_pool T} {x : Nat} {l : List Nat}
    (h : IsChain p x l) {y : Nat} (hy : y ∈ l) :
    1 ≤ y ∧ y ≤ p.pool.length := by
  obtain ⟨f, hf⟩ := h
  obtain ⟨-, m, hm⟩ := chainHandles_mem_next hf hy
  exact next?_some_range hm

lemma chainHandles_suffix {p : stack_pool T} {f x : Nat} {l : List Nat}
    (h : chainHandles p f x = some l) {y : Nat} (hy : y ∈ l) :
    ∃ t, chainHandles p f y = some (y :: t) ∧ List.IsSuffix (y :: t) l := by
  induction f generalizing x l with
  | zero => simp [chainHandles] at h
  | succ f ih =>
    by_cases hx : x = 0
    · subst hx; rw [chainHandles_zero_elim h] at hy; simp at hy
    · obtain ⟨n, l', hn, hc, rfl⟩ := chainHandles_cons_elim h hx
      rcases List.mem_cons.mp hy with rfl | hy'
      · exact ⟨l', chainHandles_cons_intro hx hn hc, List.suffix_refl _⟩
      · obtain ⟨t, ht, hsuf⟩ := ih hc hy'
        exact ⟨t, chainHandles_mono ht, hsuf.trans (List.suffix_cons _ _)⟩

lemma isChain_nodup {p : stack_pool T} {x : Nat} {l : List Nat}
    (h : IsChain p x l) : l.Nodup := by
  obtain ⟨f, hf⟩ := h
  induction f generalizing x l with
  | zero => simp [chainHandles] at hf
  | succ f ih =>
    by_cases hx : x = 0
    · subst hx; rw [chainHandles_zero_elim hf]; exact List.nodup_nil
    · obtain ⟨n, l', hn, hc, rfl⟩ := chainHandles_cons_elim hf hx
      refine List.nodup_cons.mpr ⟨?_, ih hc⟩
      intro hxl
      obtain ⟨t, ht, hsuf⟩ := chainHandles_suffix hc hxl
      have hmono := chainHandles_mono ht
      have heq : chainHandles p (f+1) x = some (x :: l') :=
        chainHandles_cons_intro hx hn hc
      rw [heq] at hmono
      have heq2 : x :: l' = x :: t := Option.some_inj.mp hmono
      injection heq2 with h1 h2
      subst h2
      have hlen := hsuf.length_le
      simp only [List.length_cons] at hlen
      omega

lemma isChain_length_le {p : stack_pool T} {x : Nat} {l : List Nat}
    (h : IsChain p x l) : l.length ≤ p.pool.length := by
  classical
  have hnd := isChain_nodup h
  calc l.length = l.toFinset.card := (List.toFinset_card_of_nodup hnd).symm
    _ ≤ (Finset.Icc 1 p.pool.length).card := by
        refine Finset.card_le_card ?_
        intro y hy
        have := isChain_mem_range h (List.mem_toFinset.mp hy)
        exact Finset.mem_Icc.mpr this
    _ = p.pool.length := by rw [Nat.card_Icc]; omega

lemma chainHandles_min {p : stack_pool T} {f x : Nat} {l : List Nat}
    (h : chainHandles p f x = some l) :
    chainHandles p (l.length + 1) x = some l := by
  induction f generalizing x l with
  | zero => simp [chainHandles] at h
  | succ f ih =>
    by_cases hx : x = 0
    · subst hx; rw [chainHandles_zero_elim h]; exact chainHandles_zero
    · obtain ⟨n, l', hn, hc, rfl⟩ := chainHandles_cons_elim h hx
      have := chainHandles_cons_intro hx hn (ih hc)
      simpa using this

lemma isChain_fuel {p : stack_pool T} {x : Nat} {l : List Nat}
    (h : IsChain p x l) {g : Nat} (hg : l.length + 1 ≤ g) :
    chainHandles p g x = some l := by
  obtain ⟨f, hf⟩ := h
  exact chainHandles_le hg (chainHandles_min hf)

lemma isChain_pool_fuel {p : stack_pool T} {x : Nat} {l : List Nat}
    (h : IsChain p x l) :
    chainHandles p (p.pool.length + 1) x = some l :=
  isChain_fuel h (by have := isChain_length_le h; omega)

/-! ### Reading nodes across pool updates -/

lemma node?_set_self {p q : stack_pool T} {a : Nat} {nd nd0 : Node T}
    (hq : q.pool = p.pool.set (a-1) nd) (h : node? p a = some nd0) :
    node? q a = some nd := by
  obtain ⟨h1, h2⟩ := node?_some_range h
  unfold node?
  rw [if_neg (by omega), hq]
  rw [List.getElem?_set_self]
  omega

lemma node?_set_ne {p q : stack_pool T} {a : Nat} {nd : Node T}
    (hq : q.pool = p.pool.set (a-1) nd) (ha : 1 ≤ a) {y : Nat} (hy : y ≠ a) :
    node? q y = node? p y := by
  unfold node?
  by_cases hy0 : y = 0
  · simp [hy0]
  · rw [if_neg hy0, if_neg hy0, hq]
    exact List.getElem?_set_ne (by omega)

lemma node?_append {p q : stack_pool T} {nd : Node T}
    (hq : q.pool = p.pool ++ [nd]) {y : Nat} (hy : y ≤ p.pool.length) :
    node? q y = node? p y := by
  unfold node?
  by_cases hy0 : y = 0
  · simp [hy0]
  · rw [if_neg hy0, if_neg hy0, hq]
    rw [List.getElem?_append_left (by omega)]

lemma node?_append_last {p q : stack_pool T} {nd : Node T}
    (hq : q.pool = p.pool ++ [nd]) :
    node? q (p.pool.length + 1) = some nd := by
  unfold node?
  rw [if_neg (by omega), hq]
  simp

/-! ### Frame lemmas: chains only depend on the nodes they visit -/

lemma chainHandles_frame {p q : stack_pool T} {l : List Nat}
    (hagree : ∀ y ∈ l, node? q y = node? p y) :
    ∀ {f x : Nat}, chainHandles p f x = some l → chainHandles q f x = some l := by
  intro f
  induction f generalizing l with
  | zero => intro x h; simp [chainHandles] at h
  | succ f ih =>
    intro x h
    by_cases hx : x = 0
    · subst hx; rw [chainHandles_zero_elim h]; exact chainHandles_zero
    · obtain ⟨n, l', hn, hc, rfl⟩ := chainHandles_cons_elim h hx
      have hxn : node? q x = node? p x := hagree x (List.mem_cons_self x l')
      have hn' : next? q x = some n := by
        unfold next? at hn ⊢
        rw [hxn]; exact hn
      have hagree' : ∀ y ∈ l', node? q y = node? p y := fun y hy =>
        hagree y (List.mem_cons_of_mem x hy)
      exact chainHandles_cons_intro hx hn' (ih hagree' hc)

lemma isChain_frame {p q : stack_pool T} {x : Nat} {l : List Nat}
    (hagree : ∀ y ∈ l, node? q y = node? p y) (h : IsChain p x l) :
    IsChain q x l := by
  obtain ⟨f, hf⟩ := h
  exact ⟨f, chainHandles_frame hagree hf⟩

lemma chainValues_frame {p q : stack_pool T} {l : List Nat}
    (hagree : ∀ y ∈ l, node? q y = node? p y) :
    chainValues q l = chainValues p l := by
  unfold chainValues
  induction l with
  | nil => rfl
  | cons y l ih =>
    have h1 : value? q y = value? p y := by
      unfold value?
      rw [hagree y (List.mem_cons_self y l)]
    rw [List.filterMap_cons, List.filterMap_cons, h1,
      ih (fun z hz => hagree z (List.mem_cons_of_mem y hz))]

/-! ### The iteration values of a terminating chain -/

lemma stackValuesF_eq_chain {p : stack_pool T} {f x : Nat} {l : List Nat}
    (h : chainHandles p f x = some l) :
    stackValuesF p f x = some (chainValues p l) := by
  induction f generalizing x l with
  | zero => simp [chainHandles] at h
  | succ f ih =>
    by_cases hx : x = 0
    · subst hx
      rw [chainHandles_zero_elim h]
      simp [stackValuesF, chainValues]
    · obtain ⟨n, l', hn, hc, rfl⟩ := chainHandles_cons_elim h hx
      unfold next? at hn
      cases hnd : node? p x with
      | none => rw [hnd] at hn; simp at hn
      | some nd =>
        rw [hnd] at hn
        have hnext : nd.next = n := by simpa using hn
        unfold stackValuesF
        rw [if_neg hx, hnd, Option.some_bind, hnext, ih hc]
        have : chainValues p (x :: l') = nd.value :: chainValues p l' := by
          unfold chainValues value?
          rw [List.filterMap_cons, hnd]
          rfl
        rw [this]
        rfl

lemma stackValues_of_isChain {p : stack_pool T} {x : Nat} {l : List Nat}
    (h : IsChain p x l) :
    stackValues p x = some (chainValues p l) :=
  stackValuesF_eq_chain (isChain_pool_fuel h)

lemma node?_of_range {p : stack_pool T} {y : Nat}
    (h1 : 1 ≤ y) (h2 : y ≤ p.pool.length) : ∃ nd, node? p y = some nd := by
  unfold node?
  rw [if_neg (by omega)]
  have : y - 1 < p.pool.length := by omega
  exact ⟨p.pool[y-1], List.getElem?_eq_getElem this⟩

/-! ### What each operation computes -/

lemma push_append_eq {p : stack_pool T} (v : T) (head : Nat)
    (hf : p.free_nodes = 0) :
    push v head p = some (p.pool.length + 1,
      { pool := p.pool ++ [⟨v, head⟩], free_nodes := 0,
        cap := max p.cap (p.pool.length + 1) }) := by
  unfold push _push
  rw [if_pos hf]

lemma push_reuse_eq {p : stack_pool T} (v : T) (head : Nat) {m : Nat}
    (hf : p.free_nodes ≠ 0) (hm : next? p p.free_nodes = some m) :
    push v head p = some (p.free_nodes,
      { pool := p.pool.set (p.free_nodes - 1) ⟨v, head⟩, free_nodes := m,
        cap := p.cap }) := by
  unfold push _push
  rw [if_neg hf, hm]
  rfl

lemma pop_zero_eq (p : stack_pool T) : pop 0 p = some (0, p) := by
  unfold pop
  rw [if_pos rfl]

lemma pop_some_eq {p : stack_pool T} {x : Nat} {nd : Node T}
    (hx : x ≠ 0) (hnd : node? p x = some nd) :
    pop x p = some (nd.next,
      { pool := p.pool.set (x-1) ⟨nd.value, p.free_nodes⟩, free_nodes := x,
        cap := p.cap }) := by
  unfold pop
  rw [if_neg hx, hnd]
  rfl

lemma chainHandles_nil_elim {p : stack_pool T} {g n : Nat}
    (h : chainHandles p g n = some []) : n = 0 := by
  by_contra hn
  cases g with
  | zero => simp [chainHandles] at h
  | succ g =>
    obtain ⟨n2, l', -, -, hcons⟩ := chainHandles_cons_elim h hn
    simp at hcons

lemma isChain_head_ne_zero {p : stack_pool T} {x a : Nat} {l : List Nat}
    (h : IsChain p x (a :: l)) : x ≠ 0 := by
  intro hx
  subst hx
  have := isChain_zero_elim h
  simp at this

lemma isChain_cons_elim {p : stack_pool T} {x a : Nat} {l : List Nat}
    (h : IsChain p x (a :: l)) :
    x = a ∧ x ≠ 0 ∧ ∃ n, next? p x = some n ∧ IsChain p n l := by
  have hx := isChain_head_ne_zero h
  obtain ⟨n, l', hn, hc, hcons⟩ := isChain_elim h hx
  injection hcons with h1 h2
  subst h2
  exact ⟨h1.symm, hx, n, hn, hc⟩

lemma freeStackLoop_last {p : stack_pool T} :
    ∀ {l' : List Nat} {g n x f : Nat}, chainHandles p g n = some l' →
      next? p x = some n → l'.length < f →
      freeStackLoop p x n f = (x :: l').getLast? := by
  intro l'
  induction l' with
  | nil =>
    intro g n x f hch hnx hf
    have hn0 : n = 0 := chainHandles_nil_elim hch
    subst hn0
    cases f with
    | zero => omega
    | succ f => simp [freeStackLoop]
  | cons b t ih =>
    intro g n x f hch hnx hf
    have hnb : n = b ∧ n ≠ 0 ∧ ∃ n2, next? p n = some n2 ∧ IsChain p n2 t :=
      isChain_cons_elim ⟨g, hch⟩
    obtain ⟨rfl, hn0, n2, hn2, hc2⟩ := hnb
    obtain ⟨g2, hg2⟩ := hc2
    cases f with
    | zero => omega
    | succ f =>
      unfold freeStackLoop
      rw [if_neg hn0, hnx, Option.some_bind, hn2, Option.some_bind]
      rw [ih hg2 hn2 (by simpa using hf)]
      rw [List.getLast?_cons_cons]

lemma free_stack_eq {p : stack_pool T} {x : Nat} {l' : List Nat}
    (h : IsChain p x (x :: l')) :
    ∃ last nd, (x :: l').getLast? = some last ∧ node? p last = some nd ∧
      free_stack x p = some (0,
        { pool := p.pool.set (last-1) ⟨nd.value, p.free_nodes⟩,
          free_nodes := x, cap := p.cap }) := by
  obtain ⟨-, hx0, n, hn, hcn⟩ := isChain_cons_elim h
  obtain ⟨g, hg⟩ := hcn
  have hlen : (x :: l').length ≤ p.pool.length := isChain_length_le h
  have hloop : freeStackLoop p x n (p.pool.length + 1) = (x :: l').getLast? :=
    freeStackLoop_last hg hn (by simp at hlen ⊢; omega)
  set last := (x :: l').getLast (List.cons_ne_nil x l') with hlastdef
  have hlast : (x :: l').getLast? = some last := by
    rw [List.getLast?_eq_getLast (x :: l') (List.cons_ne_nil x l')]
  have hmem : last ∈ x :: l' := List.getLast_mem _
  obtain ⟨hr1, hr2⟩ := isChain_mem_range h hmem
  obtain ⟨nd, hnd⟩ := node?_of_range hr1 hr2
  refine ⟨last, nd, hlast, hnd, ?_⟩
  unfold free_stack
  rw [hn, Option.some_bind, hloop, hlast, Option.some_bind, hnd]
  rfl

/-! ### Splicing one chain onto another (the `free_stack` rewrite) -/

lemma isChain_splice {p q : stack_pool T} {m : Nat} {fl : List Nat}
    (hfl : IsChain q m fl) :
    ∀ {l : List Nat} {x last : Nat}, IsChain p x l → l.getLast? = some last →
      (∀ y ∈ l.dropLast, node? q y = node? p y) →
      next? q last = some m →
      IsChain q x (l ++ fl) := by
  intro l
  induction l with
  | nil =>
    intro x last h1 hlast h2 h3
    simp at hlast
  | cons a l2 ih =>
    intro x last hch hlast hagree hnext
    obtain ⟨rfl, hx0, n, hn, hcn⟩ := isChain_cons_elim hch
    cases l2 with
    | nil =>
      have hlasta : last = x := by simpa using hlast.symm
      subst hlasta
      exact isChain_cons hx0 hnext hfl
    | cons b l3 =>
      have hlast2 : (b :: l3).getLast? = some last := by
        rw [← List.getLast?_cons_cons (a := x)]
        exact hlast
      have hagree2 : ∀ y ∈ (b :: l3).dropLast, node? q y = node? p y := by
        intro y hy
        refine hagree y ?_
        rw [List.dropLast_cons₂]
        exact List.mem_cons_of_mem x hy
      have htail : IsChain q n ((b :: l3) ++ fl) := ih hcn hlast2 hagree2 hnext
      have hxagree : node? q x = node? p x := by
        refine hagree x ?_
        rw [List.dropLast_cons₂]
        exact List.mem_cons_self x _
      have hn' : next? q x = some n := by
        unfold next? at hn ⊢
        rw [hxagree]; exact hn
      exact isChain_cons hx0 hn' htail

/-! ### Chain lists -/

lemma joinAll_cons (l : List Nat) (ls : List (List Nat)) :
    joinAll (l :: ls) = l ++ joinAll ls := rfl

lemma chains_cons_elim {p : stack_pool T} {r : Nat} {rs : List Nat}
    {ls : List (List Nat)} (h : Chains p (r :: rs) ls) :
    ∃ l ls2, ls = l :: ls2 ∧ IsChain p r l ∧ Chains p rs ls2 := by
  cases ls with
  | nil => exact absurd h (by simp [Chains])
  | cons l ls2 => exact ⟨l, ls2, rfl, h.1, h.2⟩

lemma chains_cons_intro {p : stack_pool T} {r : Nat} {rs : List Nat}
    {l : List Nat} {ls : List (List Nat)}
    (h1 : IsChain p r l) (h2 : Chains p rs ls) :
    Chains p (r :: rs) (l :: ls) := ⟨h1, h2⟩

lemma chains_mem_range {p : stack_pool T} {rs : List Nat}
    {ls : List (List Nat)} (h : Chains p rs ls) {y : Nat}
    (hy : y ∈ joinAll ls) : 1 ≤ y ∧ y ≤ p.pool.length := by
  induction rs generalizing ls with
  | nil =>
    cases ls with
    | nil => simp [joinAll] at hy
    | cons l ls2 => exact absurd h (by simp [Chains])
  | cons r rs ih =>
    obtain ⟨l, ls2, rfl, hc, hrest⟩ := chains_cons_elim h
    rw [joinAll_cons, List.mem_append] at hy
    rcases hy with hy | hy
    · exact isChain_mem_range hc hy
    · exact ih hrest hy

lemma chains_frame {p q : stack_pool T} {rs : List Nat} {ls : List (List Nat)}
    (hagree : ∀ y ∈ joinAll ls, node? q y = node? p y)
    (h : Chains p rs ls) : Chains q rs ls := by
  induction rs generalizing ls with
  | nil =>
    cases ls with
    | nil => trivial
    | cons l ls2 => exact absurd h (by simp [Chains])
  | cons r rs ih =>
    obtain ⟨l, ls2, rfl, hc, hrest⟩ := chains_cons_elim h
    refine chains_cons_intro ?_ (ih ?_ hrest)
    · refine isChain_frame ?_ hc
      intro y hy
      exact hagree y (by rw [joinAll_cons, List.mem_append]; exact Or.inl hy)
    · intro y hy
      exact hagree y (by rw [joinAll_cons, List.mem_append]; exact Or.inr hy)

lemma getLast_not_mem_dropLast {l : List Nat} {a : Nat}
    (hnd : l.Nodup) (h : l.getLast? = some a) : a ∉ l.dropLast := by
  have hne : l ≠ [] := by
    intro hl; subst hl; simp at h
  have ha : l.getLast hne = a := by
    rw [List.getLast?_eq_getLast l hne] at h
    exact Option.some_inj.mp h
  have hsplit : l.dropLast ++ [a] = l := by
    rw [← ha]; exact List.dropLast_append_getLast hne
  rw [← hsplit] at hnd
  have := List.disjoint_of_nodup_append hnd
  intro hmem
  exact this hmem (by simp)

/-! ### Preservation of invariant I2 by the pool operations -/

lemma push_inv {p p' : stack_pool T} {v : T} {s h' : Nat} {rest : List Nat}
    (hinv : Inv p (s :: rest)) (hp : push v s p = some (h', p')) :
    Inv p' (h' :: rest) := by
  obtain ⟨ls, hch, hnd, hcov⟩ := hinv
  obtain ⟨fl, ls1, rfl, hfl, hch1⟩ := chains_cons_elim hch
  obtain ⟨sl, rl, rfl, hsl, hrl⟩ := chains_cons_elim hch1
  by_cases hf : p.free_nodes = 0
  · -- the free list is empty: a brand-new node is appended
    rw [push_append_eq v s hf] at hp
    have hp2 := Option.some_inj.mp hp
    injection hp2 with hh hq
    subst hh
    have hfl0 : fl = [] := by
      rw [hf] at hfl
      exact isChain_zero_elim hfl
    subst hfl0
    have hqpool : p'.pool = p.pool ++ [(⟨v, s⟩ : Node T)] := by rw [← hq]
    have hqfree : p'.free_nodes = 0 := by rw [← hq]
    have hqlen : p'.pool.length = p.pool.length + 1 := by
      rw [hqpool]; simp
    have hagree : ∀ y, y ≤ p.pool.length → node? p' y = node? p y :=
      fun y hy => node?_append hqpool hy
    have hsl' : IsChain p' s sl :=
      isChain_frame (fun y hy => hagree y (isChain_mem_range hsl hy).2) hsl
    have hrl' : Chains p' rest rl :=
      chains_frame (fun y hy => hagree y (chains_mem_range hrl hy).2) hrl
    have hnewhead : IsChain p' (p.pool.length + 1) ((p.pool.length + 1) :: sl) := by
      refine isChain_cons (by omega) ?_ hsl'
      unfold next?
      rw [node?_append_last hqpool]
      have hs0 : s = 0 ∨ s ≠ 0 := em _
      rfl
    refine ⟨[] :: ((p.pool.length + 1) :: sl) :: rl, ?_, ?_, ?_⟩
    · rw [hqfree]
      exact chains_cons_intro (isChain_nil p') (chains_cons_intro hnewhead hrl')
    · rw [joinAll_cons, joinAll_cons]
      rw [joinAll_cons, joinAll_cons] at hnd
      simp only [List.nil_append] at hnd
      have hnotmem : p.pool.length + 1 ∉ sl ++ joinAll rl := by
        intro hmem
        rcases List.mem_append.mp hmem with hmem | hmem
        · have := (isChain_mem_range hsl hmem).2; omega
        · have := (chains_mem_range hrl hmem).2; omega
      have hcn : ((p.pool.length + 1) :: (sl ++ joinAll rl)).Nodup :=
        List.nodup_cons.mpr ⟨hnotmem, hnd⟩
      simpa using hcn
    · intro i h1 h2
      rw [hqlen] at h2
      have hold : i = p.pool.length + 1 ∨ (i ∈ sl ∨ i ∈ joinAll rl) := by
        by_cases hi : i = p.pool.length + 1
        · exact Or.inl hi
        · have hc := hcov i h1 (by omega)
          rw [joinAll_cons, joinAll_cons] at hc
          have hc2 : i ∈ sl ∨ i ∈ joinAll rl := by simpa using hc
          exact Or.inr hc2
      rw [joinAll_cons, joinAll_cons]
      simpa using hold
  · -- the free list is non-empty: its head node is recycled
    obtain ⟨n, fl2, hm, hflc, rfl⟩ := isChain_elim hfl hf
    rw [push_reuse_eq v s hf hm] at hp
    have hp2 := Option.some_inj.mp hp
    injection hp2 with hh hq
    subst hh
    have hfrange := next?_some_range hm
    have hqpool : p'.pool = p.pool.set (p.free_nodes - 1) (⟨v, s⟩ : Node T) := by
      rw [← hq]
    have hqfree : p'.free_nodes = n := by rw [← hq]
    have hqlen : p'.pool.length = p.pool.length := by rw [hqpool]; simp
    -- disjointness facts from the global nodup
    rw [joinAll_cons, joinAll_cons] at hnd
    have hnd2 := hnd
    rw [List.cons_append, List.nodup_cons] at hnd2
    obtain ⟨hfree_notmem, hnd3⟩ := hnd2
    have hfree_nfl2 : p.free_nodes ∉ fl2 := by
      intro hmem; exact hfree_notmem (by rw [List.mem_append]; exact Or.inl hmem)
    have hfree_nsl : p.free_nodes ∉ sl := by
      intro hmem
      refine hfree_notmem ?_
      rw [List.mem_append, List.mem_append]
      exact Or.inr (Or.inl hmem)
    have hfree_nrl : p.free_nodes ∉ joinAll rl := by
      intro hmem
      refine hfree_notmem ?_
      rw [List.mem_append, List.mem_append]
      exact Or.inr (Or.inr hmem)
    have hagree : ∀ y, y ≠ p.free_nodes → node? p' y = node? p y :=
      fun y hy => node?_set_ne hqpool hfrange.1 hy
    have hndfree : node? p' p.free_nodes = some ⟨v, s⟩ := by
      unfold next? at hm
      cases hnd0 : node? p p.free_nodes with
      | none => rw [hnd0] at hm; simp at hm
      | some nd0 => exact node?_set_self hqpool hnd0
    have hfl2' : IsChain p' n fl2 :=
      isChain_frame
        (fun y hy => hagree y (fun he => hfree_nfl2 (he ▸ hy))) hflc
    have hsl' : IsChain p' s sl :=
      isChain_frame
        (fun y hy => hagree y (fun he => hfree_nsl (he ▸ hy))) hsl
    have hrl' : Chains p' rest rl :=
      chains_frame
        (fun y hy => hagree y (fun he => hfree_nrl (he ▸ hy))) hrl
    have hnewhead : IsChain p' p.free_nodes (p.free_nodes :: sl) := by
      refine isChain_cons hf ?_ hsl'
      unfold next?
      rw [hndfree]
      rfl
    refine ⟨fl2 :: (p.free_nodes :: sl) :: rl, ?_, ?_, ?_⟩
    · rw [hqfree]
      exact chains_cons_intro hfl2' (chains_cons_intro hnewhead hrl')
    · rw [joinAll_cons, joinAll_cons]
      have hperm : List.Perm (fl2 ++ ((p.free_nodes :: sl) ++ joinAll rl))
          ((p.free_nodes :: fl2) ++ (sl ++ joinAll rl)) := by
        have h1 : fl2 ++ ((p.free_nodes :: sl) ++ joinAll rl)
            = fl2 ++ p.free_nodes :: (sl ++ joinAll rl) := by simp
        have h2 : (p.free_nodes :: fl2) ++ (sl ++ joinAll rl)
            = p.free_nodes :: (fl2 ++ (sl ++ joinAll rl)) := by simp
        rw [h1, h2]
        exact List.perm_middle
      exact hperm.nodup_iff.mpr hnd
    · intro i h1 h2
      rw [hqlen] at h2
      have := hcov i h1 h2
      rw [joinAll_cons, joinAll_cons] at this
      rw [joinAll_cons, joinAll_cons]
      have hperm : List.Perm (fl2 ++ ((p.free_nodes :: sl) ++ joinAll rl))
          ((p.free_nodes :: fl2) ++ (sl ++ joinAll rl)) := by
        have h1 : fl2 ++ ((p.free_nodes :: sl) ++ joinAll rl)
            = fl2 ++ p.free_nodes :: (sl ++ joinAll rl) := by simp
        have h2 : (p.free_nodes :: fl2) ++ (sl ++ joinAll rl)
            = p.free_nodes :: (fl2 ++ (sl ++ joinAll rl)) := by simp
        rw [h1, h2]
        exact List.perm_middle
      exact hperm.mem_iff.mpr this

lemma mem_of_getLast?_eq {l : List Nat} {a : Nat}
    (h : l.getLast? = some a) : a ∈ l := by
  cases l with
  | nil => simp at h
  | cons b l2 =>
    have hne : b :: l2 ≠ [] := List.cons_ne_nil b l2
    rw [List.getLast?_eq_getLast _ hne] at h
    rw [← Option.some_inj.mp h]
    exact List.getLast_mem hne

lemma pop_inv {p p' : stack_pool T} {x h' : Nat} {rest : List Nat}
    (hinv : Inv p (x :: rest)) (hp : pop x p = some (h', p')) :
    Inv p' (h' :: rest) := by
  by_cases hx : x = 0
  · subst hx
    rw [pop_zero_eq] at hp
    injection (Option.some_inj.mp hp) with hh hq
    subst hq
    subst hh
    exact hinv
  · obtain ⟨ls, hch, hnd, hcov⟩ := hinv
    obtain ⟨fl, ls1, rfl, hfl, hch1⟩ := chains_cons_elim hch
    obtain ⟨sl, rl, rfl, hsl, hrl⟩ := chains_cons_elim hch1
    obtain ⟨n, sl2, hnx, hsl2, rfl⟩ := isChain_elim hsl hx
    unfold next? at hnx
    cases hnd0 : node? p x with
    | none => rw [hnd0] at hnx; simp at hnx
    | some nd =>
      rw [hnd0] at hnx
      have hndnext : nd.next = n := by simpa using hnx
      rw [pop_some_eq hx hnd0] at hp
      injection (Option.some_inj.mp hp) with hh hq
      have hxrange := node?_some_range hnd0
      have hqpool : p'.pool = p.pool.set (x-1) (⟨nd.value, p.free_nodes⟩ : Node T) := by
        rw [← hq]
      have hqfree : p'.free_nodes = x := by rw [← hq]
      have hqlen : p'.pool.length = p.pool.length := by rw [hqpool]; simp
      -- reshuffle the old nodup through the permutation that pulls x to the front
      have hpermold : List.Perm (fl ++ ((x :: sl2) ++ joinAll rl))
          (x :: (fl ++ (sl2 ++ joinAll rl))) := by
        have h1 : fl ++ ((x :: sl2) ++ joinAll rl)
            = fl ++ x :: (sl2 ++ joinAll rl) := by simp
        rw [h1]
        exact List.perm_middle
      rw [joinAll_cons, joinAll_cons] at hnd
      have hndperm := hpermold.nodup_iff.mp hnd
      rw [List.nodup_cons] at hndperm
      obtain ⟨hx_notmem, hnd2⟩ := hndperm
      have hx_nfl : x ∉ fl := fun hmem =>
        hx_notmem (by rw [List.mem_append]; exact Or.inl hmem)
      have hx_nsl2 : x ∉ sl2 := fun hmem =>
        hx_notmem (by rw [List.mem_append, List.mem_append]; exact Or.inr (Or.inl hmem))
      have hx_nrl : x ∉ joinAll rl := fun hmem =>
        hx_notmem (by rw [List.mem_append, List.mem_append]; exact Or.inr (Or.inr hmem))
      have hagree : ∀ y, y ≠ x → node? p' y = node? p y :=
        fun y hy => node?_set_ne hqpool hxrange.1 hy
      have hndx : node? p' x = some ⟨nd.value, p.free_nodes⟩ :=
        node?_set_self hqpool hnd0
      have hfl' : IsChain p' p.free_nodes fl :=
        isChain_frame (fun y hy => hagree y (fun he => hx_nfl (he ▸ hy))) hfl
      have hsl2' : IsChain p' n sl2 :=
        isChain_frame (fun y hy => hagree y (fun he => hx_nsl2 (he ▸ hy))) hsl2
      have hrl' : Chains p' rest rl :=
        chains_frame (fun y hy => hagree y (fun he => hx_nrl (he ▸ hy))) hrl
      have hnewfree : IsChain p' x (x :: fl) := by
        refine isChain_cons hx ?_ hfl'
        unfold next?
        rw [hndx]
        rfl
      refine ⟨(x :: fl) :: sl2 :: rl, ?_, ?_, ?_⟩
      · rw [hqfree]
        refine chains_cons_intro hnewfree (chains_cons_intro ?_ hrl')
        rw [← hh, hndnext]
        exact hsl2'
      · rw [joinAll_cons, joinAll_cons]
        have hgoal : (x :: (fl ++ (sl2 ++ joinAll rl))).Nodup :=
          List.nodup_cons.mpr ⟨hx_notmem, hnd2⟩
        simpa using hgoal
      · intro i h1 h2
        rw [hqlen] at h2
        have hc := hcov i h1 h2
        rw [joinAll_cons, joinAll_cons] at hc
        have hc2 := hpermold.mem_iff.mp hc
        rw [joinAll_cons, joinAll_cons]
        simpa using hc2

lemma free_stack_inv {p p' : stack_pool T} {x r : Nat} {rest : List Nat}
    (hinv : Inv p (x :: rest)) (hp : free_stack x p = some (r, p')) :
    Inv p' rest := by
  have hx : x ≠ 0 := by
    intro h0
    subst h0
    unfold free_stack next? node? at hp
    simp at hp
  obtain ⟨ls, hch, hnd, hcov⟩ := hinv
  obtain ⟨fl, ls1, rfl, hfl, hch1⟩ := chains_cons_elim hch
  obtain ⟨sl, rl, rfl, hsl, hrl⟩ := chains_cons_elim hch1
  obtain ⟨n, sl2, hnx, hsl2, rfl⟩ := isChain_elim hsl hx
  obtain ⟨last, nd, hlast, hndlast, hfs⟩ := free_stack_eq hsl
  rw [hfs] at hp
  injection (Option.some_inj.mp hp) with hh hq
  have hlastmem : last ∈ x :: sl2 := mem_of_getLast?_eq hlast
  have hlastrange := isChain_mem_range hsl hlastmem
  have hqpool : p'.pool = p.pool.set (last-1) (⟨nd.value, p.free_nodes⟩ : Node T) := by
    rw [← hq]
  have hqfree : p'.free_nodes = x := by rw [← hq]
  have hqlen : p'.pool.length = p.pool.length := by rw [hqpool]; simp
  rw [joinAll_cons, joinAll_cons] at hnd
  have hdisj := List.disjoint_of_nodup_append hnd
  have hlast_nfl : last ∉ fl := by
    intro hmem
    exact hdisj hmem (by rw [List.mem_append]; exact Or.inl hlastmem)
  have hnd_right : ((x :: sl2) ++ joinAll rl).Nodup := (List.nodup_append.mp hnd).2.1
  have hdisj2 := List.disjoint_of_nodup_append hnd_right
  have hlast_nrl : last ∉ joinAll rl := hdisj2 hlastmem
  have hagree : ∀ y, y ≠ last → node? p' y = node? p y :=
    fun y hy => node?_set_ne hqpool hlastrange.1 hy
  have hndlast' : node? p' last = some ⟨nd.value, p.free_nodes⟩ :=
    node?_set_self hqpool hndlast
  have hfl' : IsChain p' p.free_nodes fl :=
    isChain_frame (fun y hy => hagree y (fun he => hlast_nfl (he ▸ hy))) hfl
  have hrl' : Chains p' rest rl :=
    chains_frame (fun y hy => hagree y (fun he => hlast_nrl (he ▸ hy))) hrl
  have hsl_nodup : (x :: sl2).Nodup := isChain_nodup hsl
  have hdropagree : ∀ y ∈ (x :: sl2).dropLast, node? p' y = node? p y := by
    intro y hy
    refine hagree y ?_
    intro he
    exact getLast_not_mem_dropLast hsl_nodup hlast (he ▸ hy)
  have hnextlast : next? p' last = some p.free_nodes := by
    unfold next?
    rw [hndlast']
    rfl
  have hspliced : IsChain p' x ((x :: sl2) ++ fl) :=
    isChain_splice hfl' hsl hlast hdropagree hnextlast
  refine ⟨((x :: sl2) ++ fl) :: rl, ?_, ?_, ?_⟩
  · rw [hqfree]
    exact chains_cons_intro hspliced hrl'
  · rw [joinAll_cons]
    have hpermold : List.Perm (fl ++ ((x :: sl2) ++ joinAll rl))
        (((x :: sl2) ++ fl) ++ joinAll rl) := by
      have h1 : fl ++ ((x :: sl2) ++ joinAll rl)
          = (fl ++ (x :: sl2)) ++ joinAll rl := by simp
      rw [h1]
      exact (List.perm_append_comm).append_right _
    exact hpermold.nodup_iff.mp hnd
  · intro i h1 h2
    rw [hqlen] at h2
    have hc := hcov i h1 h2
    rw [joinAll_cons, joinAll_cons] at hc
    rw [joinAll_cons]
    have hpermold : List.Perm (fl ++ ((x :: sl2) ++ joinAll rl))
        (((x :: sl2) ++ fl) ++ joinAll rl) := by
      have h1 : fl ++ ((x :: sl2) ++ joinAll rl)
          = (fl ++ (x :: sl2)) ++ joinAll rl := by simp
      rw [h1]
      exact (List.perm_append_comm).append_right _
    exact hpermold.mem_iff.mp hc

/-! ### Shapes of successful calls, and pushes after a free -/

lemma pop_some_shape {p p2 : stack_pool T} {x h2 : Nat}
    (hp : pop x p = some (h2, p2)) (hx : x ≠ 0) :
    ∃ nd, node? p x = some nd ∧ h2 = nd.next ∧
      p2.pool = p.pool.set (x-1) ⟨nd.value, p.free_nodes⟩ ∧
      p2.free_nodes = x ∧ p2.cap = p.cap := by
  unfold pop at hp
  rw [if_neg hx] at hp
  cases hnd : node? p x with
  | none => rw [hnd] at hp; simp at hp
  | some nd =>
    rw [hnd] at hp
    injection (Option.some_inj.mp hp) with hh hq
    exact ⟨nd, rfl, hh.symm, by rw [← hq], by rw [← hq], by rw [← hq]⟩

lemma free_stack_some_shape {p p2 : stack_pool T} {x r : Nat}
    (hp : free_stack x p = some (r, p2)) :
    r = 0 ∧ p2.free_nodes = x ∧ p2.cap = p.cap ∧
      ∃ last nd nIdx, next? p x = some nIdx ∧ node? p last = some nd ∧
        p2.pool = p.pool.set (last-1) ⟨nd.value, p.free_nodes⟩ := by
  unfold free_stack at hp
  cases hn : next? p x with
  | none => rw [hn] at hp; simp at hp
  | some nIdx =>
    rw [hn, Option.some_bind] at hp
    cases hloop : freeStackLoop p x nIdx (p.pool.length + 1) with
    | none => rw [hloop] at hp; simp at hp
    | some last =>
      rw [hloop, Option.some_bind] at hp
      cases hnd : node? p last with
      | none => rw [hnd] at hp; simp at hp
      | some nd =>
        rw [hnd] at hp
        injection (Option.some_inj.mp hp) with hh hq
        exact ⟨hh.symm, by rw [← hq], by rw [← hq],
          last, nd, nIdx, rfl, hnd, by rw [← hq]⟩

lemma push_after_pop {p p2 : stack_pool T} {x h2 : Nat}
    (hp : pop x p = some (h2, p2)) (hx : x ≠ 0) (v : T) (s : Nat) :
    ∃ p3, push v s p2 = some (x, p3) ∧ p3.pool.length = p2.pool.length ∧
      p3.cap = p2.cap := by
  obtain ⟨nd, hnd, -, hq, hfree2, hcap⟩ := pop_some_shape hp hx
  have hnd2 : node? p2 x = some ⟨nd.value, p.free_nodes⟩ :=
    node?_set_self hq hnd
  have hnx2 : next? p2 x = some p.free_nodes := by
    unfold next?
    rw [hnd2]
    rfl
  rw [← hfree2] at hnx2
  have hpush := push_reuse_eq v s (by rw [hfree2]; exact hx) hnx2
  rw [hfree2] at hpush
  exact ⟨_, hpush, by simp, rfl⟩

lemma push_after_free_stack {p p2 : stack_pool T} {x r : Nat}
    (hp : free_stack x p = some (r, p2)) (v : T) (s : Nat) :
    ∃ p3, push v s p2 = some (x, p3) ∧ p3.pool.length = p2.pool.length ∧
      p3.cap = p2.cap := by
  obtain ⟨-, hfree2, -, last, nd, nIdx, hnx, hndlast, hq⟩ := free_stack_some_shape hp
  have hx : x ≠ 0 := by
    intro h0
    subst h0
    unfold next? node? at hnx
    simp at hnx
  have hlr := node?_some_range hndlast
  have hnx2 : ∃ m, next? p2 x = some m := by
    by_cases hxl : x = last
    · subst hxl
      have hset : node? p2 x = some ⟨nd.value, p.free_nodes⟩ := node?_set_self hq hndlast
      refine ⟨p.free_nodes, ?_⟩
      unfold next?
      rw [hset]
      rfl
    · have hset : node? p2 x = node? p x := node?_set_ne hq hlr.1 hxl
      unfold next? at hnx ⊢
      rw [hset]
      exact ⟨nIdx, hnx⟩
  obtain ⟨m, hm⟩ := hnx2
  rw [← hfree2] at hm
  have hpush := push_reuse_eq v s (by rw [hfree2]; exact hx) hm
  rw [hfree2] at hpush
  exact ⟨_, hpush, by simp, rfl⟩

lemma pushAll_clean {vs : List T} :
    ∀ {p : stack_pool T} {h : Nat} {l : List Nat} {ws : List T},
      p.free_nodes = 0 → h = p.pool.length → IsChain p h l →
      stackValues p h = some ws →
      ∃ p2, pushAll p h vs = some (p.pool.length + vs.length, p2) ∧
        p2.free_nodes = 0 ∧ p2.pool.length = p.pool.length + vs.length ∧
        (∃ l2, IsChain p2 (p.pool.length + vs.length) l2 ∧
          stackValues p2 (p.pool.length + vs.length) = some (vs.reverse ++ ws)) := by
  induction vs with
  | nil =>
    intro p h l ws hf hh hch hsv
    refine ⟨p, ?_, hf, by simp, l, ?_, ?_⟩
    · unfold pushAll
      rw [hh]
      simp
    · simpa [hh] using hch
    · simpa [hh] using hsv
  | cons v vs ih =>
    intro p h l ws hf hh hch hsv
    have hstep := push_append_eq v h hf
    set p1 : stack_pool T :=
      { pool := p.pool ++ [⟨v, h⟩], free_nodes := 0,
        cap := max p.cap (p.pool.length + 1) } with hp1
    have hp1pool : p1.pool = p.pool ++ [(⟨v, h⟩ : Node T)] := rfl
    have hp1len : p1.pool.length = p.pool.length + 1 := by
      rw [hp1pool]; simp
    have hagree : ∀ y ∈ l, node? p1 y = node? p y := by
      intro y hy
      exact node?_append hp1pool (isChain_mem_range hch hy).2
    have hch1 : IsChain p1 h l := isChain_frame hagree hch
    have hnext1 : next? p1 (p.pool.length + 1) = some h := by
      unfold next?
      rw [node?_append_last hp1pool]
      rfl
    have hnewhead : IsChain p1 (p.pool.length + 1) ((p.pool.length + 1) :: l) :=
      isChain_cons (by omega) hnext1 hch1
    have hvals1 : stackValues p1 (p.pool.length + 1) = some (v :: ws) := by
      rw [stackValues_of_isChain hnewhead]
      have h1 : chainValues p1 ((p.pool.length + 1) :: l)
          = v :: chainValues p1 l := by
        unfold chainValues value?
        rw [List.filterMap_cons, node?_append_last hp1pool]
        rfl
      have h2 : chainValues p1 l = chainValues p l := chainValues_frame hagree
      have h3 : stackValues p h = some (chainValues p l) := stackValues_of_isChain hch
      rw [hsv] at h3
      rw [h1, h2, ← Option.some_inj.mp h3]
    have hrec := @ih p1 (p.pool.length + 1) ((p.pool.length + 1) :: l) (v :: ws)
      rfl hp1len.symm hnewhead hvals1
    rw [hp1len] at hrec
    obtain ⟨p2, hpa, hf2, hlen2, l2, hch2, hsv2⟩ := hrec
    have hlenEq : p.pool.length + (v :: vs).length = p.pool.length + 1 + vs.length := by
      simp
      omega
    refine ⟨p2, ?_, hf2, ?_, l2, ?_, ?_⟩
    · unfold pushAll
      rw [hstep, hlenEq]
      exact hpa
    · rw [hlenEq]
      exact hlen2
    · rw [hlenEq]
      exact hch2
    · rw [hlenEq]
      have hr : (v :: vs).reverse ++ ws = vs.reverse ++ (v :: ws) := by simp
      rw [hr]
      exact hsv2

lemma pushAll_reuse {vs : List T} :
    ∀ {p : stack_pool T} {fl : List Nat} (h : Nat),
      IsChain p p.free_nodes fl → vs.length ≤ fl.length →
      ∃ h2 p2, pushAll p h vs = some (h2, p2) ∧
        p2.pool.length = p.pool.length ∧ p2.cap = p.cap := by
  induction vs with
  | nil =>
    intro p fl h hch hlen
    exact ⟨h, p, rfl, rfl, rfl⟩
  | cons v vs ih =>
    intro p fl h hch hlen
    cases fl with
    | nil => simp at hlen
    | cons fn fl2 =>
      obtain ⟨rfl, hf0, m, hm, hch2⟩ := isChain_cons_elim hch
      have hstep := push_reuse_eq v h hf0 hm
      set p1 : stack_pool T :=
        { pool := p.pool.set (p.free_nodes - 1) ⟨v, h⟩, free_nodes := m,
          cap := p.cap } with hp1
      have hp1pool : p1.pool = p.pool.set (p.free_nodes - 1) (⟨v, h⟩ : Node T) := rfl
      have hfr := next?_some_range hm
      have hnd := isChain_nodup hch
      have hfn_nfl2 : p.free_nodes ∉ fl2 := (List.nodup_cons.mp hnd).1
      have hagree : ∀ y ∈ fl2, node? p1 y = node? p y := by
        intro y hy
        exact node?_set_ne hp1pool hfr.1 (fun he => hfn_nfl2 (he ▸ hy))
      have hch1 : IsChain p1 p1.free_nodes fl2 := isChain_frame hagree hch2
      obtain ⟨h2, p2, hpa, hlen2, hcap2⟩ :=
        @ih p1 fl2 p.free_nodes hch1 (by simpa using hlen)
      refine ⟨h2, p2, ?_, ?_, ?_⟩
      · unfold pushAll
        rw [hstep]
        exact hpa
      · rw [hlen2, hp1pool]
        simp
      · rw [hcap2]

end stack_pool

open stack_pool

/-! ## Claim theorems -/

/-- C1: `push(v, head)` recycles the free-list head node when the free
list is non-empty — overwriting its value with `v` and its next field
with `head` and returning its handle without growing storage — and
otherwise appends a brand-new node `{v, head}`, returning the new
storage length as a 1-based handle.  The free list is LIFO: the node
just freed by `pop` or by `free_stack` is the one returned by the next
`push`, before the backing store grows. -/
theorem C1_push_recycles_lifo {T : Type} (p : stack_pool T) (v : T) (head : Nat) :
    (p.free_nodes = 0 →
      push v head p = some (p.pool.length + 1,
        { pool := p.pool ++ [⟨v, head⟩], free_nodes := 0,
          cap := max p.cap (p.pool.length + 1) })) ∧
    (∀ m, p.free_nodes ≠ 0 → next? p p.free_nodes = some m →
      push v head p = some (p.free_nodes,
        { pool := p.pool.set (p.free_nodes - 1) ⟨v, head⟩, free_nodes := m,
          cap := p.cap }) ∧
      (p.pool.set (p.free_nodes - 1) (⟨v, head⟩ : Node T)).length = p.pool.length) ∧
    (∀ x h2 p2, pop x p = some (h2, p2) → x ≠ 0 →
      ∃ p3, push v head p2 = some (x, p3) ∧ p3.pool.length = p2.pool.length) ∧
    (∀ x r p2, free_stack x p = some (r, p2) →
      ∃ p3, push v head p2 = some (x, p3) ∧ p3.pool.length = p2.pool.length) := by
  refine ⟨fun hf => push_append_eq v head hf,
    fun m hf hm => ⟨push_reuse_eq v head hf hm, by simp⟩, ?_, ?_⟩
  · intro x h2 p2 hp hx
    obtain ⟨p3, hpush, hlen, -⟩ := push_after_pop hp hx v head
    exact ⟨p3, hpush, hlen⟩
  · intro x r p2 hp
    obtain ⟨p3, hpush, hlen, -⟩ := push_after_free_stack hp v head
    exact ⟨p3, hpush, hlen⟩

/-- Witness for C1 at a one-node pool whose free list is `[1]`: the
recycle branch returns handle 1 without growing storage, and after a
`pop` the next push reuses the popped node. -/
theorem C1_witness :
    (push 7 9 (⟨[⟨5, 0⟩], 1, 1⟩ : stack_pool Nat) = some (1, ⟨[⟨7, 9⟩], 0, 1⟩)) ∧
    (∃ p3, push 7 9 (⟨[⟨5, 1⟩], 1, 1⟩ : stack_pool Nat) = some (1, p3) ∧
      p3.pool.length = 1) := by
  have hthm := C1_push_recycles_lifo (⟨[⟨5, 0⟩], 1, 1⟩ : stack_pool Nat) 7 9
  constructor
  · have h2 := (hthm.2.1) 0 (by decide) (by decide)
    exact h2.1
  · have h3 := (hthm.2.2.1) 1 0 (⟨[⟨5, 1⟩], 1, 1⟩ : stack_pool Nat)
      (by decide) (by decide)
    obtain ⟨p3, hpush, hlen⟩ := h3
    exact ⟨p3, hpush, hlen⟩

/-- C2 (counterexample to the claim as stated): in the validated variant
(`src/stack_pool.cpp`), `pop(0)` does not return `0`: the thrown
`index_invalid` is caught and converted into the return value `1`, so
the behaviour is not identical in every variant. -/
theorem C2_counterexample :
    popChecked 0 (mkPool : stack_pool Nat) = some (1, mkPool) ∧ (1 : Nat) ≠ 0 := by
  constructor
  · decide
  · decide

/-- C2 (amended): `pop(0)` performs no mutation in every variant — the
storage and free head are returned unchanged — and returns `0` in the
unchecked variants (`stack_pool.hpp`, `first_impl.cpp`); the validated
variant also performs no mutation but logs the error and returns `1`
instead of `0`. -/
theorem C2_pop_empty_no_mutation {T : Type} (p : stack_pool T) :
    pop 0 p = some (0, p) ∧ popChecked 0 p = some (1, p) := by
  constructor
  · exact pop_zero_eq p
  · rfl

/-- C3: on a non-empty terminating chain `x :: l'` disjoint from the free
list, `free_stack x` walks to the chain's last node, splices the whole
chain onto the front of the free list by rewriting only that tail node's
next field (the new free head is `x` and the old free head is what the
former tail now points to), returns sentinel `0`, and afterwards as many
pushes as the chain had nodes all succeed by reuse, growing neither the
storage length nor the capacity. -/
theorem C3_free_stack_splices {T : Type} (p : stack_pool T) (x : Nat)
    (l' fl : List Nat)
    (hx : IsChain p x (x :: l'))
    (hfl : IsChain p p.free_nodes fl)
    (hdisj : ∀ y ∈ x :: l', y ∉ fl) :
    ∃ p2 last nd, free_stack x p = some (0, p2) ∧
      (x :: l').getLast? = some last ∧ node? p last = some nd ∧
      p2.pool = p.pool.set (last - 1) ⟨nd.value, p.free_nodes⟩ ∧
      p2.free_nodes = x ∧
      next? p2 last = some p.free_nodes ∧
      IsChain p2 x ((x :: l') ++ fl) ∧
      p2.pool.length = p.pool.length ∧
      ∀ vs : List T, vs.length = (x :: l').length →
        ∃ h3 p3, pushAll p2 new_stack vs = some (h3, p3) ∧
          p3.pool.length = p.pool.length ∧ capacity p3 = capacity p := by
  obtain ⟨last, nd, hlast, hndlast, hfs⟩ := free_stack_eq hx
  set p2 : stack_pool T :=
    { pool := p.pool.set (last-1) ⟨nd.value, p.free_nodes⟩,
      free_nodes := x, cap := p.cap } with hp2
  have hp2pool : p2.pool = p.pool.set (last-1) (⟨nd.value, p.free_nodes⟩ : Node T) := rfl
  have hlastmem : last ∈ x :: l' := mem_of_getLast?_eq hlast
  have hlastrange := isChain_mem_range hx hlastmem
  have hndlast2 : node? p2 last = some ⟨nd.value, p.free_nodes⟩ :=
    node?_set_self hp2pool hndlast
  have hnextlast : next? p2 last = some p.free_nodes := by
    unfold next?
    rw [hndlast2]
    rfl
  have hlast_nfl : last ∉ fl := hdisj last hlastmem
  have hfl2 : IsChain p2 p.free_nodes fl :=
    isChain_frame
      (fun y hy => node?_set_ne hp2pool hlastrange.1 (fun he => hlast_nfl (he ▸ hy)))
      hfl
  have hnodup : (x :: l').Nodup := isChain_nodup hx
  have hdrop : ∀ y ∈ (x :: l').dropLast, node? p2 y = node? p y := by
    intro y hy
    refine node?_set_ne hp2pool hlastrange.1 ?_
    intro he
    exact getLast_not_mem_dropLast hnodup hlast (he ▸ hy)
  have hspliced : IsChain p2 x ((x :: l') ++ fl) :=
    isChain_splice hfl2 hx hlast hdrop hnextlast
  have hlen2 : p2.pool.length = p.pool.length := by
    rw [hp2pool]; simp
  refine ⟨p2, last, nd, hfs, hlast, hndlast, rfl, rfl, hnextlast, hspliced, hlen2, ?_⟩
  intro vs hvslen
  have hfl3 : IsChain p2 p2.free_nodes ((x :: l') ++ fl) := hspliced
  have hvs : vs.length ≤ ((x :: l') ++ fl).length := by
    rw [hvslen]; simp
  obtain ⟨h3, p3, hpa, hl3, hc3⟩ := pushAll_reuse new_stack hfl3 hvs
  refine ⟨h3, p3, hpa, ?_, ?_⟩
  · rw [hl3, hlen2]
  · show p3.cap = p.cap
    rw [hc3]

/-- Witness for C3: freeing the two-node chain `2 → 1` in a two-node pool
with an empty free list, then pushing two values without growth. -/
theorem C3_witness :
    ∃ p2 last nd,
      free_stack 2 (⟨[⟨10, 0⟩, ⟨20, 1⟩], 0, 2⟩ : stack_pool Nat) = some (0, p2) ∧
      ([2, 1] : List Nat).getLast? = some last ∧
      node? (⟨[⟨10, 0⟩, ⟨20, 1⟩], 0, 2⟩ : stack_pool Nat) last = some nd ∧
      p2.pool = ([⟨10, 0⟩, ⟨20, 1⟩] : List (Node Nat)).set (last - 1) ⟨nd.value, 0⟩ ∧
      p2.free_nodes = 2 ∧
      next? p2 last = some 0 ∧
      IsChain p2 2 [2, 1] ∧
      p2.pool.length = 2 ∧
      ∀ vs : List Nat, vs.length = 2 →
        ∃ h3 p3, pushAll p2 new_stack vs = some (h3, p3) ∧
          p3.pool.length = 2 ∧ capacity p3 = 2 := by
  have h := C3_free_stack_splices (⟨[⟨10, 0⟩, ⟨20, 1⟩], 0, 2⟩ : stack_pool Nat) 2
    [1] [] ⟨3, by decide⟩ ⟨1, by decide⟩ (by decide)
  simpa using h

/-- C4: invariant I2 is preserved by `push`, `pop` and `free_stack`:
starting from a state where every allocated position `1..=len` is
reachable from exactly one root (one caller-held stack handle or the
free head, never both, never neither, never from two chains), each
operation called on one of the held handles yields a state with the same
exclusive-reachability property, including any newly appended
position. -/
theorem C4_I2_preserved {T : Type} (p : stack_pool T) :
    (∀ (v : T) (s : Nat) (rest : List Nat) (h2 : Nat) (p2 : stack_pool T),
      Inv p (s :: rest) → push v s p = some (h2, p2) → Inv p2 (h2 :: rest)) ∧
    (∀ (x : Nat) (rest : List Nat) (h2 : Nat) (p2 : stack_pool T),
      Inv p (x :: rest) → pop x p = some (h2, p2) → Inv p2 (h2 :: rest)) ∧
    (∀ (x : Nat) (rest : List Nat) (r : Nat) (p2 : stack_pool T),
      Inv p (x :: rest) → free_stack x p = some (r, p2) → Inv p2 rest) :=
  ⟨fun _ _ _ _ _ hi hp => push_inv hi hp,
   fun _ _ _ _ hi hp => pop_inv hi hp,
   fun _ _ _ _ hi hp => free_stack_inv hi hp⟩

/-- Witness for C4: pushing onto the empty stack of an empty pool yields
a one-node pool that still satisfies I2 with the returned handle as the
only live root. -/
theorem C4_witness : Inv (⟨[⟨(5 : Nat), 0⟩], 0, 1⟩ : stack_pool Nat) [1] :=
  (C4_I2_preserved (mkPool : stack_pool Nat)).1 5 0 [] 1
    (⟨[⟨(5 : Nat), 0⟩], 0, 1⟩ : stack_pool Nat)
    ⟨[[], []], ⟨⟨1, rfl⟩, ⟨1, rfl⟩, trivial⟩, by decide,
      by intro i h1 h2; exact absurd (Nat.le_trans h1 h2) (by decide)⟩
    (by decide)

/-- C5: for a stack handle `s` heading a terminating chain disjoint from
the free list, `pop (push v s)` returns `s`, the value read at the
pushed handle just before the pop is `v`, and the value sequence
reachable from `s` is identical before the push and after the pop. -/
theorem C5_push_pop_inverse {T : Type} (p : stack_pool T) (v : T) (s : Nat)
    (ls fl : List Nat)
    (hs : IsChain p s ls) (hfl : IsChain p p.free_nodes fl)
    (hdisj : ∀ y ∈ ls, y ∉ fl) :
    ∃ h2 p2 p3, push v s p = some (h2, p2) ∧
      value? p2 h2 = some v ∧
      pop h2 p2 = some (s, p3) ∧
      stackValues p3 s = stackValues p s ∧ IsChain p3 s ls := by
  by_cases hf : p.free_nodes = 0
  · -- append branch: the new node sits at position len+1, outside the chain
    set h2 : Nat := p.pool.length + 1 with hh2
    set p2 : stack_pool T :=
      { pool := p.pool ++ [⟨v, s⟩], free_nodes := 0,
        cap := max p.cap (p.pool.length + 1) } with hp2def
    have hp2pool : p2.pool = p.pool ++ [(⟨v, s⟩ : Node T)] := rfl
    have hpush : push v s p = some (h2, p2) := push_append_eq v s hf
    have hnd2 : node? p2 h2 = some ⟨v, s⟩ := node?_append_last hp2pool
    have hval : value? p2 h2 = some v := by
      unfold value?
      rw [hnd2]
      rfl
    have hpop : pop h2 p2 = some (s,
        { pool := p2.pool.set (h2-1) ⟨v, p2.free_nodes⟩, free_nodes := h2,
          cap := p2.cap }) := pop_some_eq (by omega) hnd2
    set p3 : stack_pool T :=
      { pool := p2.pool.set (h2-1) ⟨v, p2.free_nodes⟩, free_nodes := h2,
        cap := p2.cap } with hp3def
    have hp3pool : p3.pool = p2.pool.set (h2-1) (⟨v, p2.free_nodes⟩ : Node T) := rfl
    have hagree : ∀ y ∈ ls, node? p3 y = node? p y := by
      intro y hy
      have hyr := isChain_mem_range hs hy
      have h31 : node? p3 y = node? p2 y :=
        node?_set_ne hp3pool (by omega) (by omega)
      rw [h31]
      exact node?_append hp2pool hyr.2
    have hch3 : IsChain p3 s ls := isChain_frame hagree hs
    refine ⟨h2, p2, p3, hpush, hval, hpop, ?_, hch3⟩
    rw [stackValues_of_isChain hch3, stackValues_of_isChain hs,
      chainValues_frame hagree]
  · -- recycle branch: the reused node is the free head, outside the chain
    obtain ⟨m, fl2, hm, hflc, hfleq⟩ := isChain_elim hfl hf
    have hfn_mem : p.free_nodes ∈ fl := by rw [hfleq]; exact List.mem_cons_self _ _
    have hfn_nls : p.free_nodes ∉ ls := fun hmem => hdisj _ hmem hfn_mem
    have hfr := next?_some_range hm
    set h2 : Nat := p.free_nodes with hh2
    set p2 : stack_pool T :=
      { pool := p.pool.set (h2 - 1) ⟨v, s⟩, free_nodes := m, cap := p.cap }
      with hp2def
    have hp2pool : p2.pool = p.pool.set (h2-1) (⟨v, s⟩ : Node T) := rfl
    have hpush : push v s p = some (h2, p2) := push_reuse_eq v s hf hm
    have hndp : ∃ nd0, node? p h2 = some nd0 := node?_of_range hfr.1 hfr.2
    obtain ⟨nd0, hnd0⟩ := hndp
    have hnd2 : node? p2 h2 = some ⟨v, s⟩ := node?_set_self hp2pool hnd0
    have hval : value? p2 h2 = some v := by
      unfold value?
      rw [hnd2]
      rfl
    have hpop : pop h2 p2 = some (s,
        { pool := p2.pool.set (h2-1) ⟨v, p2.free_nodes⟩, free_nodes := h2,
          cap := p2.cap }) := pop_some_eq hf hnd2
    set p3 : stack_pool T :=
      { pool := p2.pool.set (h2-1) ⟨v, p2.free_nodes⟩, free_nodes := h2,
        cap := p2.cap } with hp3def
    have hp3pool : p3.pool = p2.pool.set (h2-1) (⟨v, p2.free_nodes⟩ : Node T) := rfl
    have hagree : ∀ y ∈ ls, node? p3 y = node? p y := by
      intro y hy
      have hyne : y ≠ h2 := fun he => hfn_nls (he ▸ hy)
      have h31 : node? p3 y = node? p2 y := node?_set_ne hp3pool hfr.1 hyne
      rw [h31]
      exact node?_set_ne hp2pool hfr.1 hyne
    have hch3 : IsChain p3 s ls := isChain_frame hagree hs
    refine ⟨h2, p2, p3, hpush, hval, hpop, ?_, hch3⟩
    rw [stackValues_of_isChain hch3, stackValues_of_isChain hs,
      chainValues_frame hagree]

/-- Witness for C5 at a one-node pool: pushing 7 onto the stack `[1]`
and popping returns handle 1 and restores the value sequence `[10]`. -/
theorem C5_witness :
    ∃ h2 p2 p3, push 7 1 (⟨[⟨(10 : Nat), 0⟩], 0, 1⟩ : stack_pool Nat) = some (h2, p2) ∧
      value? p2 h2 = some 7 ∧
      pop h2 p2 = some (1, p3) ∧
      stackValues p3 1 = stackValues (⟨[⟨(10 : Nat), 0⟩], 0, 1⟩ : stack_pool Nat) 1 ∧
      IsChain p3 1 [1] :=
  C5_push_pop_inverse (⟨[⟨(10 : Nat), 0⟩], 0, 1⟩ : stack_pool Nat) 7 1 [1] []
    ⟨2, by decide⟩ ⟨1, by decide⟩ (by decide)

/-- C6: pushing any sequence of `n` values one by one onto the handle
returned by `new_stack()` in a fresh pool, threading each returned
handle into the next push, then iterating the final handle from begin to
end yields exactly those `n` values in reverse push order. -/
theorem C6_push_iterate_reverse {T : Type} (vs : List T) :
    ∃ p2, pushAll (mkPool : stack_pool T) new_stack vs = some (vs.length, p2) ∧
      stackValues p2 vs.length = some vs.reverse := by
  have h := @pushAll_clean T vs mkPool new_stack [] []
    rfl rfl (isChain_nil _) rfl
  obtain ⟨p2, hpa, -, -, l2, -, hsv⟩ := h
  have h0 : (mkPool : stack_pool T).pool.length = 0 := rfl
  rw [h0] at hpa hsv
  refine ⟨p2, ?_, ?_⟩
  · simpa using hpa
  · simpa using hsv

/-- C7: in the validated variant the push-side `check_index` tests
`head < end()`, i.e. `head < 0`, which is vacuously false for the
unsigned index type, so it never raises: a non-sentinel invalid handle
such as 7 in an empty pool passes the check and the push mutates storage
normally (appending `{42, next := 7}` and returning handle 1) instead of
being rejected before mutation. -/
theorem C7_push_check_vacuous :
    (∀ x : Nat, check_index_push x = false) ∧
    pushChecked (42 : Nat) 7 (mkPool : stack_pool Nat)
      = some (1, (⟨[⟨42, 7⟩], 0, 1⟩ : stack_pool Nat)) := by
  constructor
  · intro x
    exact decide_eq_false (Nat.not_lt_zero x)
  · decide

/-- C8: iterators compare equal exactly when their handles are equal,
the end iterator holds the sentinel handle `0` whatever its argument, so
`begin(0) == end(x)` for every `x`, and iterating a stack whose handle
is `0` yields zero elements. -/
theorem C8_iterator_equality (T : Type) :
    (∀ a b : PoolIterator, iterEq a b = true ↔ a.stack_index = b.stack_index) ∧
    (∀ (p : stack_pool T) (x : Nat), (endIter p x).stack_index = 0) ∧
    (∀ (p : stack_pool T) (x : Nat), iterEq (begin p 0) (endIter p x) = true) ∧
    (∀ (p : stack_pool T) (x : Nat), iterEq (begin p new_stack) (endIter p x) = true) ∧
    (∀ p : stack_pool T, stackValues p 0 = some []) := by
  refine ⟨?_, fun p x => rfl, fun p x => rfl, fun p x => rfl, fun p => rfl⟩
  intro a b
  unfold iterEq
  simp

/-- C9: constructing a pool with a capacity hint pre-reserves storage,
so `capacity()` is at least the hint in the header variant — but not in
every variant: `first_impl.cpp` returns `pool.size()` from `capacity()`
(contradicting its own comment), which is `0` immediately after
construction with hint 22. -/
theorem C9_capacity_after_construct :
    (∀ (T : Type) (n : Nat), n ≤ capacity (mkPoolReserve n : stack_pool T)) ∧
    capacity (mkPoolReserve 22 : stack_pool Nat) = 22 ∧
    capacity_first_impl (mkPoolReserve 22 : stack_pool Nat) = 0 ∧
    ¬ (22 ≤ capacity_first_impl (mkPoolReserve 22 : stack_pool Nat)) := by
  refine ⟨fun T n => Nat.le_refl n, rfl, rfl, by decide⟩

/-- C10: `free_stack` is safe exactly on non-sentinel chain heads: on a
handle heading a terminating chain every storage access is in range and
the call succeeds, but `free_stack(0)` immediately reads `next(0)`,
storage position `0 - 1`, which is out of range — so unlike `pop`, the
empty-stack call is not a tolerated no-op. -/
theorem C10_free_stack_sentinel_oob {T : Type} (p : stack_pool T) :
    (∀ x l', IsChain p x (x :: l') → ∃ res, free_stack x p = some res) ∧
    free_stack 0 p = none ∧
    pop 0 p = some (0, p) := by
  refine ⟨?_, rfl, pop_zero_eq p⟩
  intro x l' hch
  obtain ⟨last, nd, -, -, hfs⟩ := free_stack_eq hch
  exact ⟨_, hfs⟩

/-- Witness for C10: freeing the singleton chain `[1]` succeeds in a
one-node pool. -/
theorem C10_witness :
    ∃ res, free_stack 1 (⟨[⟨(0 : Nat), 0⟩], 0, 1⟩ : stack_pool Nat) = some res :=
  (C10_free_stack_sentinel_oob (⟨[⟨(0 : Nat), 0⟩], 0, 1⟩ : stack_pool Nat)).1
    1 [] ⟨2, by decide⟩
